import Mathlib

/-!
Verification of the relation-aware graph self-attention layer
(`GraphSelfAttentionLayer` in `lib/model/faster_rcnn/graph_att_layer.py`).

The layer is embedded shallowly: tensors become index functions into `ℝ`
together with explicit dimension records, the learned sub-modules (`FCNet`,
the weight-normalized grouped convolution) become their effective affine
maps, and `forward` becomes a pure function returning `Except Err T3`,
with an error wherever a tensor operation of the source would raise.
All reshape/transpose steps of the source are kept as explicit index
arithmetic.  Dropout is inactive (evaluation mode), so the `FCNet`
sub-networks act as plain affine maps.
-/

namespace GraphAtt

/-- Construction hyperparameters of `GraphSelfAttentionLayer.__init__`
(`feat_dim`, `nongt_dim`, `pos_emb_dim`, `num_heads`).  `pos_emb_dim` is an
integer because the source uses `-1` to disable the positional path. -/
structure Config where
  feat_dim : ℕ
  nongt_dim : ℕ
  pos_emb_dim : ℤ
  num_heads : ℕ

/-- Modelled from the spec: the repository's `FCNet` (module `fc`, not part of
the sources at hand) is, per the spec, "a configurable stack of linear+dropout
(+ optional non-linearity) transforms"; with activation `None` and dropout
inactive each `FCNet([a, b], None, p)` is the affine map given by a weight
matrix and a bias vector.  Likewise the weight-normalized grouped `Conv2d`
`linear_out_` is "a linear transform whose weight vector is factored into
direction and magnitude", i.e. an arbitrary grouped linear map at forward
time.  `Weights` collects the effective weight matrices and bias vectors of
`query`, `key`, `pair_pos_fc1` and `linear_out_`. -/
structure Weights where
  wq : ℕ → ℕ → ℝ
  bq : ℕ → ℝ
  wk : ℕ → ℕ → ℝ
  bk : ℕ → ℝ
  wpos : ℕ → ℕ → ℝ
  bpos : ℕ → ℝ
  wout : ℕ → ℕ → ℝ
  bout : ℕ → ℝ

/-- Rank-3 tensor: a dimension record plus an index function. -/
structure T3 where
  d1 : ℕ
  d2 : ℕ
  d3 : ℕ
  el : ℕ → ℕ → ℕ → ℝ

/-- Rank-4 tensor: a dimension record plus an index function. -/
structure T4 where
  d1 : ℕ
  d2 : ℕ
  d3 : ℕ
  d4 : ℕ
  el : ℕ → ℕ → ℕ → ℕ → ℝ

/-- Failure modes of `forward`: a tensor shape that cannot be viewed or
broadcast as the source requires, and the `AttributeError` raised on
`label_biases_att.unsqueeze(3)` when `label_biases_att` is `None` while
`adj_matrix` is given. -/
inductive Err where
  | viewMismatch : Err
  | shapeMismatch : Err
  | missingLabelBiases : Err
deriving DecidableEq

noncomputable section

/-- Per-head channel count: `self.dim_group = int(self.dim[i] / num_heads)`
(source line 39), i.e. floor division. -/
def dim_group (cfg : Config) : ℕ := cfg.feat_dim / cfg.num_heads

/-- Source line 71:
`nongt_dim = self.nongt_dim if self.nongt_dim < num_rois else num_rois`. -/
def effective_nongt (cfg : Config) (num_rois : ℕ) : ℕ :=
  if cfg.nongt_dim < num_rois then cfg.nongt_dim else num_rois

/-- Modelled from the spec: application of an `FCNet([inDim, outDim], None, p)`
sub-network in evaluation mode — an affine map (see `Weights`). -/
def fcApply (W : ℕ → ℕ → ℝ) (bias : ℕ → ℝ) (inDim : ℕ) (x : ℕ → ℝ) (o : ℕ) : ℝ :=
  (∑ d ∈ Finset.range inDim, W o d * x d) + bias o

/-- Source line 73: `nongt_roi_feat = roi_feat[:, :nongt_dim, :]`.  The slice
restricts the region axis to `[0, n)`; outside that range the slice has no
elements, encoded here by the value `0` (never consumed: every consumer
ranges over `Finset.range n` only). -/
def nongt_roi_feat (n : ℕ) (roi : ℕ → ℕ → ℕ → ℝ) (b j d : ℕ) : ℝ :=
  if j < n then roi b j d else 0

/-- Source line 96: `v_data = nongt_roi_feat` — the values used for
aggregation are exactly the raw sliced feature rows, with no projection. -/
def v_data (n : ℕ) (roi : ℕ → ℕ → ℕ → ℝ) (b j d : ℕ) : ℝ :=
  nongt_roi_feat n roi b j d

/-- Source line 76: `q_data = self.query(roi_feat)`. -/
def q_data (cfg : Config) (θ : Weights) (roi : ℕ → ℕ → ℕ → ℝ) (b i o : ℕ) : ℝ :=
  fcApply θ.wq θ.bq cfg.feat_dim (roi b i) o

/-- Source line 86: `k_data = self.key(nongt_roi_feat)`. -/
def k_data (cfg : Config) (θ : Weights) (n : ℕ) (roi : ℕ → ℕ → ℕ → ℝ) (b j o : ℕ) : ℝ :=
  fcApply θ.wk θ.bk cfg.feat_dim (nongt_roi_feat n roi b j) o

/-- Source lines 79-83: view `q_data` as `(B, N, num_heads, dim_group)` and
transpose axes 1 and 2; index order is `(b, h, i, g)`. -/
def q_data_batch (cfg : Config) (θ : Weights) (roi : ℕ → ℕ → ℕ → ℝ) (b h i g : ℕ) : ℝ :=
  q_data cfg θ roi b i (h * dim_group cfg + g)

/-- Source lines 89-93: view `k_data` as `(B, n, num_heads, dim_group)` and
transpose axes 1 and 2; index order is `(b, h, j, g)`. -/
def k_data_batch (cfg : Config) (θ : Weights) (n : ℕ) (roi : ℕ → ℕ → ℕ → ℝ) (b h j g : ℕ) : ℝ :=
  k_data cfg θ n roi b j (h * dim_group cfg + g)

/-- Source line 100: `aff = matmul(q_data_batch, transpose(k_data_batch, 2, 3))`. -/
def aff (cfg : Config) (θ : Weights) (n : ℕ) (roi : ℕ → ℕ → ℕ → ℝ) (b h i j : ℕ) : ℝ :=
  ∑ g ∈ Finset.range (dim_group cfg),
    q_data_batch cfg θ roi b h i g * k_data_batch cfg θ n roi b h j g

/-- Source lines 103-105: scale by `1.0 / sqrt(dim_group[1])` and transpose
axes 1 and 2; index order is `(b, i, h, j)`. -/
def aff_scale (cfg : Config) (θ : Weights) (n : ℕ) (roi : ℕ → ℕ → ℕ → ℝ) (b i h j : ℕ) : ℝ :=
  (1 / Real.sqrt (dim_group cfg : ℝ)) * aff cfg θ n roi b h i j

/-- Rectified linear activation, `nn.functional.relu` (source line 117). -/
def reluR (x : ℝ) : ℝ := max x 0

/-- The clamp threshold `1e-6` of source line 126. -/
def clamp_min_val : ℝ := 1 / 1000000

/-- Source lines 112-121: flatten `position_embedding` to
`(B, N*n, pos_emb_dim)` (row `m = i*n + j` holds entry `(m / n, m % n)`),
apply `pair_pos_fc1`, relu, and view back as `(B, N, n, num_heads)`;
index order is `(b, i, j, h)`. -/
def pos_score (cfg : Config) (θ : Weights) (n : ℕ) (pe : ℕ → ℕ → ℕ → ℕ → ℝ)
    (b i j h : ℕ) : ℝ :=
  reluR (fcApply θ.wpos θ.bpos cfg.pos_emb_dim.toNat
    (fun p => pe b ((i * n + j) / n) ((i * n + j) % n) p) h)

/-- Source lines 124-128: transpose axes 2 and 3 (index order `(b, i, h, j)`)
and clamp at `1e-6` with `torch.max(aff_weight, thresh)`. -/
def pos_gate (cfg : Config) (θ : Weights) (n : ℕ) (pe : ℕ → ℕ → ℕ → ℕ → ℝ)
    (b i h j : ℕ) : ℝ :=
  max (pos_score cfg θ n pe b i j h) clamp_min_val

/-- Source lines 106-130: the working score tensor.  Starting from
`aff_scale`, when `position_embedding is not None and self.pos_emb_dim > 0`
the log of the clamped positional gate is added elementwise
(`weighted_aff += torch.log(threshold_aff)`). -/
def weighted_aff (cfg : Config) (θ : Weights) (N : ℕ) (posE : Option T4)
    (roi : ℕ → ℕ → ℕ → ℝ) (b i h j : ℕ) : ℝ :=
  match posE with
  | none => aff_scale cfg θ (effective_nongt cfg N) roi b i h j
  | some pe =>
    if 0 < cfg.pos_emb_dim then
      aff_scale cfg θ (effective_nongt cfg N) roi b i h j +
        Real.log (pos_gate cfg θ (effective_nongt cfg N) pe.el b i h j)
    else
      aff_scale cfg θ (effective_nongt cfg N) roi b i h j

/-- The masking sentinel `-9e15` of source line 136. -/
def neg_sentinel : ℝ := -9000000000000000

/-- Source lines 135-149: transpose the working scores to
`(B, N, n, num_heads)`, replace the score by the sentinel wherever the
(head-broadcast) adjacency is not `> 0` (`torch.where`), add the
(head-broadcast) label biases to the masked result, and transpose back;
index order is `(b, i, h, j)`. -/
def weighted_aff_masked (s : ℕ → ℕ → ℕ → ℕ → ℝ) (A L : T3) (b i h j : ℕ) : ℝ :=
  (if 0 < A.el b i j then s b i h j else neg_sentinel) + L.el b i j

/-- Softmax of a score row over `Finset.range n` (the mathematical function
computed by `nn.functional.softmax(·, 3)`; the max-shift performed internally
by the numerical implementation leaves the value unchanged). -/
def softmaxRow (n : ℕ) (s : ℕ → ℝ) (j : ℕ) : ℝ :=
  Real.exp (s j) / ∑ k ∈ Finset.range n, Real.exp (s k)

/-- Source line 152: `aff_softmax = nn.functional.softmax(weighted_aff, 3)` —
softmax over the last (neighborhood) axis, independently per
`(batch, region, head)`. -/
def aff_softmax (n : ℕ) (s : ℕ → ℕ → ℕ → ℕ → ℝ) (b i h j : ℕ) : ℝ :=
  softmaxRow n (s b i h) j

/-- Source lines 155-159: view the softmax weights as `(B, N*num_heads, n)`
(row `m = i*num_heads + h`) and matmul with `v_data`. -/
def output_t (H n : ℕ) (s : ℕ → ℕ → ℕ → ℕ → ℝ) (v : ℕ → ℕ → ℕ → ℝ) (b m d : ℕ) : ℝ :=
  ∑ j ∈ Finset.range n, aff_softmax n s b (m / H) (m % H) j * v b j d

/-- Source line 162: view `output_t` as `(B*N, num_heads*feat_dim, 1, 1)` —
sample index `sIdx = b*N + i`, channel index `ch = h*feat_dim + d`. -/
def conv_in (cfg : Config) (N n : ℕ) (s : ℕ → ℕ → ℕ → ℕ → ℝ) (v : ℕ → ℕ → ℕ → ℝ)
    (sIdx ch : ℕ) : ℝ :=
  output_t cfg.num_heads n s v (sIdx / N)
    ((sIdx % N) * cfg.num_heads + ch / cfg.feat_dim) (ch % cfg.feat_dim)

/-- Source line 165: the grouped 1x1 convolution `linear_out_`
(`in_channels = num_heads*feat_dim`, `out_channels = feat_dim`,
`groups = num_heads`): output channel `o` belongs to group
`o / dim_group` and reads the `feat_dim` input channels of that group. -/
def linear_out (cfg : Config) (θ : Weights) (N n : ℕ) (s : ℕ → ℕ → ℕ → ℕ → ℝ)
    (v : ℕ → ℕ → ℕ → ℝ) (sIdx o : ℕ) : ℝ :=
  (∑ c ∈ Finset.range cfg.feat_dim,
      θ.wout o c * conv_in cfg N n s v sIdx ((o / dim_group cfg) * cfg.feat_dim + c)) +
    θ.bout o

/-- Source line 166: view the convolution output back as
`(B, N, feat_dim)`; element `(b, i, o)` is sample `b*N + i`, channel `o`. -/
def outputEl (cfg : Config) (θ : Weights) (N n : ℕ) (s : ℕ → ℕ → ℕ → ℕ → ℝ)
    (roi : ℕ → ℕ → ℕ → ℝ) (b i o : ℕ) : ℝ :=
  linear_out cfg θ N n s (v_data n roi) (b * N + i) o

/-- Shape admissibility of a supplied `position_embedding` once the positional
branch (source lines 108-130) is entered: the views and the in-place addition
into the `(B, N, num_heads, n)` score tensor succeed exactly when the
embedding is `(B, N, n, pos_emb_dim)`. -/
def checkPos (cfg : Config) (B N n : ℕ) (posE : Option T4) : Option Err :=
  match posE with
  | none => none
  | some pe =>
    if 0 < cfg.pos_emb_dim then
      if pe.d1 = B ∧ pe.d2 = N ∧ pe.d3 = n ∧ pe.d4 = cfg.pos_emb_dim.toNat then none
      else some Err.shapeMismatch
    else none

/-- The `forward` method (source lines 57-167).  `B` and `N` are the sizes
`roi_feat.size(0)` and `roi_feat.size(1)`.  The two leading checks model the
`view` calls of lines 79 and 89 (they require
`feat_dim = num_heads * dim_group` element-count compatibility); the
positional branch is guarded exactly as in line 108
(`position_embedding is not None and self.pos_emb_dim > 0`); the adjacency
branch (lines 133-149) checks the mask/bias shapes and raises on a missing
`label_biases_att`. -/
def forward (cfg : Config) (θ : Weights) (B N : ℕ) (roi : ℕ → ℕ → ℕ → ℝ)
    (adj_matrix : Option T3) (position_embedding : Option T4)
    (label_biases_att : Option T3) : Except Err T3 :=
  let n := effective_nongt cfg N
  if B * N * cfg.feat_dim ≠ B * N * (cfg.num_heads * dim_group cfg) then
    Except.error Err.viewMismatch
  else if B * n * cfg.feat_dim ≠ B * n * (cfg.num_heads * dim_group cfg) then
    Except.error Err.viewMismatch
  else
    match checkPos cfg B N n position_embedding with
    | some e => Except.error e
    | none =>
      match adj_matrix with
      | none =>
          Except.ok ⟨B, N, cfg.feat_dim, fun b i o =>
            outputEl cfg θ N n (weighted_aff cfg θ N position_embedding roi) roi b i o⟩
      | some A =>
          if A.d1 = B ∧ A.d2 = N ∧ A.d3 = n then
            match label_biases_att with
            | none => Except.error Err.missingLabelBiases
            | some L =>
                if L.d1 = B ∧ L.d2 = N ∧ L.d3 = n then
                  Except.ok ⟨B, N, cfg.feat_dim, fun b i o =>
                    outputEl cfg θ N n
                      (weighted_aff_masked
                        (weighted_aff cfg θ N position_embedding roi) A L)
                      roi b i o⟩
                else Except.error Err.shapeMismatch
          else Except.error Err.shapeMismatch

/-- Discriminator for `Except` results. -/
def exceptIsOk {ε α : Type _} : Except ε α → Bool
  | Except.ok _ => true
  | Except.error _ => false

/-- The pre-softmax score tensor selected by `forward`: the masked-and-biased
scores when both `adj_matrix` and `label_biases_att` are supplied, the plain
working scores otherwise. -/
def scoreOf (cfg : Config) (θ : Weights) (N : ℕ) (posE : Option T4)
    (roi : ℕ → ℕ → ℕ → ℝ) (adj bias : Option T3) : ℕ → ℕ → ℕ → ℕ → ℝ :=
  match adj, bias with
  | some A, some L => weighted_aff_masked (weighted_aff cfg θ N posE roi) A L
  | _, _ => weighted_aff cfg θ N posE roi

/-- All-zero effective weights, used for concrete evaluations. -/
def zeroW : Weights :=
  ⟨fun _ _ => 0, fun _ => 0, fun _ _ => 0, fun _ => 0,
   fun _ _ => 0, fun _ => 0, fun _ _ => 0, fun _ => 0⟩

/-- All-zero feature batch, used for concrete evaluations. -/
def zeroRoi : ℕ → ℕ → ℕ → ℝ := fun _ _ _ => 0

/-- Zero score tensor, used for concrete evaluations. -/
def zeroScore : ℕ → ℕ → ℕ → ℕ → ℝ := fun _ _ _ _ => 0

/-- Tiny configuration: `feat_dim = 1`, `nongt_dim = 1`, `pos_emb_dim = -1`
(explicit relation), `num_heads = 1`. -/
def cfg1 : Config := ⟨1, 1, -1, 1⟩

/-- Configuration with a two-region neighborhood: `feat_dim = 1`,
`nongt_dim = 2`, `pos_emb_dim = -1`, `num_heads = 1`. -/
def cfg2 : Config := ⟨1, 2, -1, 1⟩

/-- Configuration with `pos_emb_dim = 0` (boundary of the disabled positional
path) and two heads. -/
def cfg3 : Config := ⟨2, 2, 0, 2⟩

/-- Configuration with the positional path enabled: `pos_emb_dim = 2`. -/
def cfg5 : Config := ⟨1, 1, 2, 1⟩

/-- The spec's scenario configuration: `feat_dim = 64`, `nongt_dim = 20`,
`num_heads = 16`. -/
def cfg64 : Config := ⟨64, 20, -1, 16⟩

/-- A well-formed position embedding supplied to a layer whose positional
path is disabled. -/
def pe1 : T4 := ⟨1, 1, 1, 4, fun _ _ _ _ => 1⟩

/-- Another position embedding supplied to a layer with `pos_emb_dim = 0`. -/
def pe3 : T4 := ⟨1, 1, 1, 1, fun _ _ _ _ => 5⟩

/-- Position embedding whose entries are negative (exercises the clamp). -/
def pe5 : T4 := ⟨1, 1, 1, 2, fun _ _ _ _ => -3⟩

/-- All-ones adjacency of shape `(1, 1, 1)`. -/
def A1 : T3 := ⟨1, 1, 1, fun _ _ _ => 1⟩

/-- Adjacency of shape `(1, 2, 2)` whose rows keep neighbor `0` and mask
neighbor `1`. -/
def Amask : T3 := ⟨1, 2, 2, fun _ _ m => if m = 0 then 1 else 0⟩

/-- All-zero adjacency of shape `(1, 2, 2)` (every edge masked). -/
def Azero : T3 := ⟨1, 2, 2, fun _ _ _ => 0⟩

/-- All-zero label biases of shape `(1, 2, 2)`. -/
def Lzero : T3 := ⟨1, 2, 2, fun _ _ _ => 0⟩

/-- Label biases of shape `(1, 2, 2)` that differ across the neighborhood:
`log 2` on neighbor `1`, `0` elsewhere. -/
def Llog : T3 := ⟨1, 2, 2, fun _ _ m => if m = 1 then Real.log 2 else 0⟩

/-- Feature batch whose rows beyond row `0` hold the value `5`. -/
def roiP : ℕ → ℕ → ℕ → ℝ := fun _ j _ => if j = 0 then 1 else 5

/-- Feature batch equal to `roiP` on row `0` but differing on later rows. -/
def roiQ : ℕ → ℕ → ℕ → ℝ := fun _ j _ => if j = 0 then 1 else 7

/-- The output tensor of `forward cfg1 zeroW 1 1 zeroRoi none none none`. -/
def tA : T3 :=
  ⟨1, 1, 1, fun b i o =>
    outputEl cfg1 zeroW 1 1 (weighted_aff cfg1 zeroW 1 none zeroRoi) zeroRoi b i o⟩

/-- The output tensor of `forward cfg1 zeroW 1 2 roiP none none none`. -/
def t9P : T3 :=
  ⟨1, 2, 1, fun b i o =>
    outputEl cfg1 zeroW 2 1 (weighted_aff cfg1 zeroW 2 none roiP) roiP b i o⟩

/-- The output tensor of `forward cfg1 zeroW 1 2 roiQ none none none`. -/
def t9Q : T3 :=
  ⟨1, 2, 1, fun b i o =>
    outputEl cfg1 zeroW 2 1 (weighted_aff cfg1 zeroW 2 none roiQ) roiQ b i o⟩

/-- The output tensor of
`forward cfg2 zeroW 1 2 zeroRoi (some Azero) none (some Lzero)`. -/
def t4 : T3 :=
  ⟨1, 2, 1, fun b i o =>
    outputEl cfg2 zeroW 2 2
      (weighted_aff_masked (weighted_aff cfg2 zeroW 2 none zeroRoi) Azero Lzero)
      zeroRoi b i o⟩

/-- On a successful call, `forward` returns exactly the `(B, N, feat_dim)`
tensor whose elements are the mixed per-head aggregation of the selected
score tensor. -/
theorem forward_ok_eq (cfg : Config) (θ : Weights) (B N : ℕ)
    (roi : ℕ → ℕ → ℕ → ℝ) (adj : Option T3) (posE : Option T4) (bias : Option T3)
    (t : T3) (hfw : forward cfg θ B N roi adj posE bias = Except.ok t) :
    t = ⟨B, N, cfg.feat_dim, fun b i o =>
      outputEl cfg θ N (effective_nongt cfg N)
        (scoreOf cfg θ N posE roi adj bias) roi b i o⟩ := by
  rcases adj with _ | A <;> rcases bias with _ | L <;>
    simp only [forward, scoreOf] at hfw ⊢ <;>
    repeat'
      first
      | (injection hfw; done)
      | (injection hfw with h; exact h.symm)
      | split at hfw

/-- For an in-range region `i < N` and output channel `o < feat_dim` (and a
head-divisible width), the flatten/view index arithmetic of source lines
155-166 collapses: output element `(b, i, o)` is the grouped mixing of the
head-`o / dim_group` attention aggregation of the raw neighbor rows. -/
theorem outputEl_eq (cfg : Config) (θ : Weights) (N n : ℕ)
    (s : ℕ → ℕ → ℕ → ℕ → ℝ) (roi : ℕ → ℕ → ℕ → ℝ) (b i o : ℕ)
    (hdg : cfg.num_heads * dim_group cfg = cfg.feat_dim)
    (hi : i < N) (ho : o < cfg.feat_dim) :
    outputEl cfg θ N n s roi b i o =
      (∑ c ∈ Finset.range cfg.feat_dim,
        θ.wout o c * ∑ j ∈ Finset.range n,
          aff_softmax n s b i (o / dim_group cfg) j * roi b j c) + θ.bout o := by
  have hD : 0 < cfg.feat_dim := lt_of_le_of_lt (Nat.zero_le o) ho
  have hN : 0 < N := lt_of_le_of_lt (Nat.zero_le i) hi
  have hdgpos : 0 < dim_group cfg := by
    rcases Nat.eq_zero_or_pos (dim_group cfg) with h0 | h
    · rw [h0, mul_zero] at hdg; omega
    · exact h
  have hH : 0 < cfg.num_heads := by
    rcases Nat.eq_zero_or_pos cfg.num_heads with h0 | h
    · rw [h0, zero_mul] at hdg; omega
    · exact h
  have hg : o / dim_group cfg < cfg.num_heads := by
    rw [Nat.div_lt_iff_lt_mul hdgpos, hdg]; exact ho
  have hb : (b * N + i) / N = b := by
    rw [mul_comm, Nat.mul_add_div hN, Nat.div_eq_of_lt hi, add_zero]
  have hbm : (b * N + i) % N = i := by
    rw [mul_comm, Nat.mul_add_mod, Nat.mod_eq_of_lt hi]
  unfold outputEl linear_out
  congr 1
  refine Finset.sum_congr rfl fun c hc => ?_
  have hcD := Finset.mem_range.mp hc
  congr 1
  unfold conv_in
  have e1 : (o / dim_group cfg * cfg.feat_dim + c) / cfg.feat_dim = o / dim_group cfg := by
    rw [mul_comm, Nat.mul_add_div hD, Nat.div_eq_of_lt hcD, add_zero]
  have e2 : (o / dim_group cfg * cfg.feat_dim + c) % cfg.feat_dim = c := by
    rw [mul_comm, Nat.mul_add_mod, Nat.mod_eq_of_lt hcD]
  rw [e1, e2, hb, hbm]
  unfold output_t
  have e3 : (i * cfg.num_heads + o / dim_group cfg) / cfg.num_heads = i := by
    rw [mul_comm, Nat.mul_add_div hH, Nat.div_eq_of_lt hg, add_zero]
  have e4 : (i * cfg.num_heads + o / dim_group cfg) % cfg.num_heads = o / dim_group cfg := by
    rw [mul_comm, Nat.mul_add_mod, Nat.mod_eq_of_lt hg]
  rw [e3, e4]
  refine Finset.sum_congr rfl fun j hj => ?_
  simp [v_data, nongt_roi_feat, Finset.mem_range.mp hj]

/-- Output element `(b, i, o)` is unchanged when the score tensor and the
feature rows it aggregates agree at region `i` and at the neighbor rows. -/
theorem outputEl_congr (cfg : Config) (θ : Weights) (N n : ℕ)
    (s sB : ℕ → ℕ → ℕ → ℕ → ℝ) (roi roiB : ℕ → ℕ → ℕ → ℝ) (b i o : ℕ)
    (hdg : cfg.num_heads * dim_group cfg = cfg.feat_dim)
    (hi : i < N) (ho : o < cfg.feat_dim)
    (hs : ∀ h j, j < n → s b i h j = sB b i h j)
    (hv : ∀ j d, j < n → roi b j d = roiB b j d) :
    outputEl cfg θ N n s roi b i o = outputEl cfg θ N n sB roiB b i o := by
  rw [outputEl_eq cfg θ N n s roi b i o hdg hi ho,
      outputEl_eq cfg θ N n sB roiB b i o hdg hi ho]
  congr 1
  refine Finset.sum_congr rfl fun c hc => ?_
  congr 1
  refine Finset.sum_congr rfl fun j hj => ?_
  have hjn := Finset.mem_range.mp hj
  rw [hv j c hjn]
  congr 1
  unfold aff_softmax softmaxRow
  rw [hs _ j hjn]
  congr 1
  exact Finset.sum_congr rfl fun k hk => by rw [hs _ k (Finset.mem_range.mp hk)]

/-- The working score at query row `i` depends only on feature row `i` (via
the query projection) and on the neighbor rows (via the key projection). -/
theorem weighted_aff_congr_roi (cfg : Config) (θ : Weights) (N : ℕ)
    (posE : Option T4) (roi roiB : ℕ → ℕ → ℕ → ℝ) (b i : ℕ)
    (hagree : ∀ j d, j < effective_nongt cfg N ∨ j = i → roi b j d = roiB b j d) :
    ∀ h j, j < effective_nongt cfg N →
      weighted_aff cfg θ N posE roi b i h j = weighted_aff cfg θ N posE roiB b i h j := by
  intro h j hj
  have hq : ∀ oo, q_data cfg θ roi b i oo = q_data cfg θ roiB b i oo := by
    intro oo
    unfold q_data fcApply
    congr 1
    refine Finset.sum_congr rfl fun d _ => ?_
    rw [hagree i d (Or.inr rfl)]
  have hk : ∀ jj oo, jj < effective_nongt cfg N →
      k_data cfg θ (effective_nongt cfg N) roi b jj oo =
        k_data cfg θ (effective_nongt cfg N) roiB b jj oo := by
    intro jj oo hjj
    unfold k_data fcApply
    congr 1
    refine Finset.sum_congr rfl fun d _ => ?_
    unfold nongt_roi_feat
    rw [if_pos hjj, if_pos hjj, hagree jj d (Or.inl hjj)]
  have haff : aff cfg θ (effective_nongt cfg N) roi b h i j =
      aff cfg θ (effective_nongt cfg N) roiB b h i j := by
    unfold aff q_data_batch k_data_batch
    refine Finset.sum_congr rfl fun g _ => ?_
    rw [hq _, hk j _ hj]
  cases posE with
  | none =>
    unfold weighted_aff aff_scale
    rw [haff]
  | some pe =>
    unfold weighted_aff aff_scale
    split
    · rw [haff]
    · rw [haff]

/-- C9: output row `(b, i)` of `forward` depends only on feature row
`(b, i)` and on the neighbor rows `(b, 0 .. effective_nongt - 1)` (plus the
shared optional inputs): two calls whose `roi_feat` arguments differ only in
rows `(b, j)` with `j ≥ effective_nongt` and `j ≠ i` produce the same output
row `(b, i)`. -/
theorem C9_output_row_locality (cfg : Config) (θ : Weights) (B N : ℕ)
    (roi roiB : ℕ → ℕ → ℕ → ℝ) (adj : Option T3) (posE : Option T4)
    (bias : Option T3) (t tB : T3) (b i o : ℕ)
    (hdg : cfg.num_heads * dim_group cfg = cfg.feat_dim)
    (hi : i < N) (ho : o < cfg.feat_dim)
    (hagree : ∀ j d, j < effective_nongt cfg N ∨ j = i → roi b j d = roiB b j d)
    (hfw : forward cfg θ B N roi adj posE bias = Except.ok t)
    (hfwB : forward cfg θ B N roiB adj posE bias = Except.ok tB) :
    t.el b i o = tB.el b i o := by
  rw [forward_ok_eq cfg θ B N roi adj posE bias t hfw,
      forward_ok_eq cfg θ B N roiB adj posE bias tB hfwB]
  refine outputEl_congr cfg θ N (effective_nongt cfg N) _ _ roi roiB b i o hdg hi ho ?_ ?_
  · intro h j hj
    have hw := weighted_aff_congr_roi cfg θ N posE roi roiB b i hagree h j hj
    cases adj with
    | none =>
      cases bias with
      | none => simpa [scoreOf] using hw
      | some L => simpa [scoreOf] using hw
    | some A =>
      cases bias with
      | none => simpa [scoreOf] using hw
      | some L =>
        simp only [scoreOf, weighted_aff_masked]
        rw [hw]
  · intro j d hj
    exact hagree j d (Or.inl hj)

/-- Witness for C9: two feature batches that agree on row `0` (the query and
sole neighbor) but differ on row `1` give the same output row `0`. -/
theorem C9_witness :
    (cfg1.num_heads * dim_group cfg1 = cfg1.feat_dim) ∧ (0 < 2) ∧ (0 < cfg1.feat_dim) ∧
    (∀ j d, j < effective_nongt cfg1 2 ∨ j = 0 → roiP 0 j d = roiQ 0 j d) ∧
    forward cfg1 zeroW 1 2 roiP none none none = Except.ok t9P ∧
    forward cfg1 zeroW 1 2 roiQ none none none = Except.ok t9Q ∧
    t9P.el 0 0 0 = t9Q.el 0 0 0 := by
  have hag : ∀ j d, j < effective_nongt cfg1 2 ∨ j = 0 → roiP 0 j d = roiQ 0 j d := by
    intro j d hj
    have hj0 : j = 0 := by
      rcases hj with h | h
      · have e : effective_nongt cfg1 2 = 1 := rfl
        omega
      · exact h
    subst hj0
    simp [roiP, roiQ]
  exact ⟨rfl, by decide, by decide, hag, rfl, rfl,
    C9_output_row_locality cfg1 zeroW 1 2 roiP roiQ none none none t9P t9Q 0 0 0
      rfl (by decide) (by decide) hag rfl rfl⟩

/-- C6: for every call of `forward`, the effective neighborhood size is
`min(configured nongt_dim, N)` (clamping to `N` without error when the cap
exceeds `N`), and the value vectors used for aggregation are exactly the raw,
unprojected feature rows `0 .. effective_nongt - 1`. -/
theorem C6_neighbor_pool (cfg : Config) (N : ℕ) (roi : ℕ → ℕ → ℕ → ℝ) (b j d : ℕ)
    (hj : j < effective_nongt cfg N) :
    effective_nongt cfg N = min cfg.nongt_dim N ∧
    v_data (effective_nongt cfg N) roi b j d = roi b j d := by
  constructor
  · unfold effective_nongt
    split <;> omega
  · simp [v_data, nongt_roi_feat, hj]

/-- Witness for C6 at the spec's scenario `N = 5`, `nongt_dim = 20`: the cap
clamps to `5` without error. -/
theorem C6_witness :
    (0 < effective_nongt cfg64 5) ∧
    (effective_nongt cfg64 5 = min cfg64.nongt_dim 5 ∧
      v_data (effective_nongt cfg64 5) zeroRoi 0 0 0 = zeroRoi 0 0 0) :=
  ⟨by decide, C6_neighbor_pool cfg64 5 zeroRoi 0 0 0 (by decide)⟩

/-- C7: every successful `forward` call returns a tensor of shape
`(B, N, feat_dim)` (the configured output width `dim[2] = feat_dim`),
regardless of `N`, of the effective neighborhood size, and of which optional
inputs are supplied. -/
theorem C7_output_shape (cfg : Config) (θ : Weights) (B N : ℕ)
    (roi : ℕ → ℕ → ℕ → ℝ) (adj : Option T3) (posE : Option T4) (bias : Option T3)
    (t : T3) (hfw : forward cfg θ B N roi adj posE bias = Except.ok t) :
    t.d1 = B ∧ t.d2 = N ∧ t.d3 = cfg.feat_dim := by
  rw [forward_ok_eq cfg θ B N roi adj posE bias t hfw]
  exact ⟨rfl, rfl, rfl⟩

/-- Witness for C7: a concrete minimal call. -/
theorem C7_witness :
    forward cfg1 zeroW 1 1 zeroRoi none none none = Except.ok tA ∧
    (tA.d1 = 1 ∧ tA.d2 = 1 ∧ tA.d3 = cfg1.feat_dim) :=
  ⟨rfl, C7_output_shape cfg1 zeroW 1 1 zeroRoi none none none tA rfl⟩

/-- C8: after the normalization stage, for every `(batch, region, head)`
triple the softmax weights over the neighborhood axis are non-negative and
sum to `1`; the softmax is taken over the last (neighborhood) axis only,
independently per `(batch, region, head)`. -/
theorem C8_softmax_normalization (n : ℕ) (s : ℕ → ℕ → ℕ → ℕ → ℝ) (b i h : ℕ)
    (hn : 0 < n) :
    (∑ j ∈ Finset.range n, aff_softmax n s b i h j = 1) ∧
    (∀ j, 0 ≤ aff_softmax n s b i h j) := by
  have hden : 0 < ∑ k ∈ Finset.range n, Real.exp (s b i h k) :=
    Finset.sum_pos (fun k _ => Real.exp_pos _) (Finset.nonempty_range_iff.mpr hn.ne')
  constructor
  · unfold aff_softmax softmaxRow
    rw [← Finset.sum_div]
    exact div_self hden.ne'
  · intro j
    exact div_nonneg (Real.exp_pos _).le hden.le

/-- Witness for C8 at a concrete one-neighbor row. -/
theorem C8_witness :
    0 < 1 ∧
    ((∑ j ∈ Finset.range 1, aff_softmax 1 zeroScore 0 0 0 j = 1) ∧
      ∀ j, 0 ≤ aff_softmax 1 zeroScore 0 0 0 j) :=
  ⟨Nat.one_pos, C8_softmax_normalization 1 zeroScore 0 0 0 Nat.one_pos⟩

/-- C10: when `adj_matrix` is `None`, `forward` never reads
`label_biases_att`: any two values of that argument (including `None`)
produce identical results, and no error arises from supplying it. -/
theorem C10_label_biases_unread_without_adjacency (cfg : Config) (θ : Weights)
    (B N : ℕ) (roi : ℕ → ℕ → ℕ → ℝ) (posE : Option T4) (bias1 bias2 : Option T3) :
    forward cfg θ B N roi none posE bias1 = forward cfg θ B N roi none posE bias2 := rfl

/-- Counterexample to C2 as stated: with `pos_emb_dim = -1 ≤ 0` and a
non-`None` `position_embedding`, `forward` succeeds (the guard on source
line 108 skips the positional block), instead of failing. -/
theorem C2_counterexample :
    cfg1.pos_emb_dim ≤ 0 ∧
    exceptIsOk (forward cfg1 zeroW 1 1 zeroRoi none (some pe1) none) = true :=
  ⟨by decide, rfl⟩

/-- C2 (amended): when the layer is configured with `pos_emb_dim ≤ 0`, a
non-`None` `position_embedding` argument is silently ignored — `forward`
returns exactly the result of the same call with `position_embedding =
None`, with no error. -/
theorem C2_amended_pos_emb_silently_ignored (cfg : Config) (θ : Weights)
    (B N : ℕ) (roi : ℕ → ℕ → ℕ → ℝ) (adj : Option T3) (bias : Option T3)
    (pe : T4) (hneg : cfg.pos_emb_dim ≤ 0) :
    forward cfg θ B N roi adj (some pe) bias = forward cfg θ B N roi adj none bias := by
  have hnp : ¬ 0 < cfg.pos_emb_dim := not_lt.mpr hneg
  have hw : weighted_aff cfg θ N (some pe) roi = weighted_aff cfg θ N none roi := by
    funext b i h j
    simp [weighted_aff, hnp]
  have hc : checkPos cfg B N (effective_nongt cfg N) (some pe) =
      checkPos cfg B N (effective_nongt cfg N) none := by
    simp [checkPos, hnp]
  simp only [forward]
  rw [hw, hc]

/-- Witness for the amended C2. -/
theorem C2_witness :
    cfg1.pos_emb_dim ≤ 0 ∧
    forward cfg1 zeroW 1 1 zeroRoi none (some pe1) none =
      forward cfg1 zeroW 1 1 zeroRoi none none none :=
  ⟨by decide, C2_amended_pos_emb_silently_ignored cfg1 zeroW 1 1 zeroRoi none none pe1 (by decide)⟩

/-- Counterexample to C3 as stated: supplying `position_embedding` while
`pos_emb_dim = 0 ≤ 0` is a precondition violation per the claim, yet
`forward` succeeds rather than failing. -/
theorem C3_counterexample :
    cfg3.pos_emb_dim ≤ 0 ∧
    exceptIsOk (forward cfg3 zeroW 1 1 zeroRoi none (some pe3) none) = true :=
  ⟨by decide, rfl⟩

/-- C3 (amended): omitting `label_biases_att` while `adj_matrix` is given
makes `forward` fail with an error surfaced to the caller
(`label_biases_att.unsqueeze(3)` on `None`, source line 148). -/
theorem C3_missing_label_biases_error (cfg : Config) (θ : Weights) (B N : ℕ)
    (roi : ℕ → ℕ → ℕ → ℝ) (A : T3) (posE : Option T4)
    (hdg : cfg.num_heads * dim_group cfg = cfg.feat_dim)
    (hchk : checkPos cfg B N (effective_nongt cfg N) posE = none)
    (hA : A.d1 = B ∧ A.d2 = N ∧ A.d3 = effective_nongt cfg N) :
    forward cfg θ B N roi (some A) posE none = Except.error Err.missingLabelBiases := by
  simp [forward, hdg, hchk, hA]

/-- Witness for the amended C3. -/
theorem C3_witness :
    (cfg1.num_heads * dim_group cfg1 = cfg1.feat_dim) ∧
    (checkPos cfg1 1 1 (effective_nongt cfg1 1) none = none) ∧
    (A1.d1 = 1 ∧ A1.d2 = 1 ∧ A1.d3 = effective_nongt cfg1 1) ∧
    forward cfg1 zeroW 1 1 zeroRoi (some A1) none none =
      Except.error Err.missingLabelBiases :=
  ⟨rfl, rfl, ⟨rfl, rfl, rfl⟩,
    C3_missing_label_biases_error cfg1 zeroW 1 1 zeroRoi A1 none rfl rfl ⟨rfl, rfl, rfl⟩⟩

/-- C5: when `position_embedding` is supplied and `pos_emb_dim > 0`, the
positional gate is the positional feed-forward projection (output width
`num_heads`) followed by relu, clamped to a minimum of `1e-6`, then logged
and added elementwise to the working content scores; a value that is zero or
negative before the log is silently clamped to `1e-6` (never an error). -/
theorem C5_positional_gate (cfg : Config) (θ : Weights) (N : ℕ) (pe : T4)
    (roi : ℕ → ℕ → ℕ → ℝ) (b i h j : ℕ) (hpos : 0 < cfg.pos_emb_dim) :
    (weighted_aff cfg θ N (some pe) roi b i h j
      = aff_scale cfg θ (effective_nongt cfg N) roi b i h j +
        Real.log (max (pos_score cfg θ (effective_nongt cfg N) pe.el b i j h)
          clamp_min_val)) ∧
    (∀ x : ℝ, x ≤ 0 → max (reluR x) clamp_min_val = clamp_min_val) := by
  constructor
  · simp only [weighted_aff]
    rw [if_pos hpos]
    rfl
  · intro x hx
    have h0 : reluR x = 0 := max_eq_right hx
    rw [h0]
    exact max_eq_right (by norm_num [clamp_min_val])

/-- Witness for C5 at a concrete positional configuration with negative
embedding values (the clamp path). -/
theorem C5_witness :
    0 < cfg5.pos_emb_dim ∧
    ((weighted_aff cfg5 zeroW 1 (some pe5) zeroRoi 0 0 0 0
        = aff_scale cfg5 zeroW (effective_nongt cfg5 1) zeroRoi 0 0 0 0 +
          Real.log (max (pos_score cfg5 zeroW (effective_nongt cfg5 1) pe5.el 0 0 0 0)
            clamp_min_val)) ∧
      (∀ x : ℝ, x ≤ 0 → max (reluR x) clamp_min_val = clamp_min_val)) :=
  ⟨by decide, C5_positional_gate cfg5 zeroW 1 pe5 zeroRoi 0 0 0 0 (by decide)⟩

/-- Counterexample to C1 as stated: with an all-masked neighborhood row
(two neighbors, adjacency `≤ 0` everywhere, zero biases) the masked edge
`(0, 1)` receives softmax weight `1/2`, not a near-zero weight. -/
theorem C1_counterexample :
    Azero.el 0 0 1 ≤ 0 ∧
    aff_softmax 2 (weighted_aff_masked (weighted_aff cfg2 zeroW 2 none zeroRoi) Azero Lzero)
      0 0 0 1 = 1 / 2 := by
  constructor
  · norm_num [Azero]
  · have hs : ∀ m, weighted_aff_masked (weighted_aff cfg2 zeroW 2 none zeroRoi)
        Azero Lzero 0 0 0 m = neg_sentinel := by
      intro m
      simp [weighted_aff_masked, Azero, Lzero]
    unfold aff_softmax softmaxRow
    rw [Finset.sum_range_succ, Finset.sum_range_one, hs 0, hs 1]
    rw [div_eq_iff (by positivity)]
    ring

/-- C1 (amended): when adjacency is supplied, masking is applied before the
label biases (wherever adjacency `> 0` the working score is kept, elsewhere
it becomes the sentinel `-9e15`; the bias is then added to every entry of
the masked result, sentinel entries included); and for a masked edge
`(i, j)`, provided some neighbor `k` of the same row is unmasked and all
working scores and biases of the row are bounded by `1e14` in magnitude,
that edge's softmax weight is at most `1e-15`, whatever the (bounded) bias
values. -/
theorem C1_mask_before_bias (cfg : Config) (θ : Weights) (N : ℕ)
    (posE : Option T4) (roi : ℕ → ℕ → ℕ → ℝ) (A L : T3) (b i h j k : ℕ)
    (hj : j < effective_nongt cfg N) (hk : k < effective_nongt cfg N)
    (hmask : A.el b i j ≤ 0) (hopen : 0 < A.el b i k)
    (hbound : ∀ m, m < effective_nongt cfg N →
      |weighted_aff cfg θ N posE roi b i h m| ≤ 100000000000000 ∧
        |L.el b i m| ≤ 100000000000000) :
    (∀ b2 i2 h2 j2,
        weighted_aff_masked (weighted_aff cfg θ N posE roi) A L b2 i2 h2 j2
          = (if 0 < A.el b2 i2 j2 then weighted_aff cfg θ N posE roi b2 i2 h2 j2
             else neg_sentinel) + L.el b2 i2 j2) ∧
    aff_softmax (effective_nongt cfg N)
        (weighted_aff_masked (weighted_aff cfg θ N posE roi) A L) b i h j
      ≤ 1 / 1000000000000000 := by
  refine ⟨fun _ _ _ _ => rfl, ?_⟩
  set n := effective_nongt cfg N with hn
  set w := weighted_aff cfg θ N posE roi with hwdef
  set s := weighted_aff_masked w A L with hsdef
  have hsj : s b i h j = neg_sentinel + L.el b i j := by
    rw [hsdef]
    unfold weighted_aff_masked
    rw [if_neg (not_lt.mpr hmask)]
  have hsk : s b i h k = w b i h k + L.el b i k := by
    rw [hsdef]
    unfold weighted_aff_masked
    rw [if_pos hopen]
  obtain ⟨hwj, hLj⟩ := hbound j hj
  obtain ⟨hwk, hLk⟩ := hbound k hk
  have hLj2 := abs_le.mp hLj
  have hwk2 := abs_le.mp hwk
  have hLk2 := abs_le.mp hLk
  have hdiff : s b i h j - s b i h k ≤ -8700000000000000 := by
    rw [hsj, hsk]
    simp only [neg_sentinel]
    linarith [hLj2.2, hwk2.1, hLk2.1]
  have hsum : Real.exp (s b i h k) ≤ ∑ m ∈ Finset.range n, Real.exp (s b i h m) :=
    Finset.single_le_sum (fun m _ => (Real.exp_pos _).le) (Finset.mem_range.mpr hk)
  have h1 : aff_softmax n s b i h j ≤ Real.exp (s b i h j - s b i h k) := by
    rw [Real.exp_sub]
    unfold aff_softmax softmaxRow
    exact div_le_div_of_nonneg_left (Real.exp_pos _).le (Real.exp_pos _) hsum
  have h2 : Real.exp (s b i h j - s b i h k) ≤ Real.exp (-8700000000000000 : ℝ) :=
    Real.exp_le_exp.mpr hdiff
  have h3 : Real.exp (-8700000000000000 : ℝ) ≤ 1 / 1000000000000000 := by
    rw [Real.exp_neg]
    have hx : (8700000000000000 : ℝ) + 1 ≤ Real.exp 8700000000000000 :=
      Real.add_one_le_exp _
    calc (Real.exp 8700000000000000)⁻¹
        ≤ ((8700000000000000 : ℝ) + 1)⁻¹ := inv_anti₀ (by norm_num) hx
      _ ≤ 1 / 1000000000000000 := by norm_num
  exact le_trans h1 (le_trans h2 h3)

/-- Witness for the amended C1: one unmasked neighbor (`k = 0`), one masked
neighbor (`j = 1`), zero scores and biases. -/
theorem C1_witness :
    (1 < effective_nongt cfg2 2) ∧ (0 < effective_nongt cfg2 2) ∧
    (Amask.el 0 0 1 ≤ 0) ∧ (0 < Amask.el 0 0 0) ∧
    (∀ m, m < effective_nongt cfg2 2 →
      |weighted_aff cfg2 zeroW 2 none zeroRoi 0 0 0 m| ≤ 100000000000000 ∧
        |Lzero.el 0 0 m| ≤ 100000000000000) ∧
    ((∀ b2 i2 h2 j2,
        weighted_aff_masked (weighted_aff cfg2 zeroW 2 none zeroRoi) Amask Lzero b2 i2 h2 j2
          = (if 0 < Amask.el b2 i2 j2 then weighted_aff cfg2 zeroW 2 none zeroRoi b2 i2 h2 j2
             else neg_sentinel) + Lzero.el b2 i2 j2) ∧
      aff_softmax (effective_nongt cfg2 2)
          (weighted_aff_masked (weighted_aff cfg2 zeroW 2 none zeroRoi) Amask Lzero) 0 0 0 1
        ≤ 1 / 1000000000000000) := by
  have h1 : (1 : ℕ) < effective_nongt cfg2 2 := by decide
  have h2 : (0 : ℕ) < effective_nongt cfg2 2 := by decide
  have hmask : Amask.el 0 0 1 ≤ 0 := by norm_num [Amask]
  have hopen : (0 : ℝ) < Amask.el 0 0 0 := by norm_num [Amask]
  have hwzero : ∀ m, weighted_aff cfg2 zeroW 2 none zeroRoi 0 0 0 m = 0 := by
    intro m
    simp [weighted_aff, aff_scale, aff, q_data_batch, k_data_batch, q_data, k_data,
      fcApply, zeroW, zeroRoi, nongt_roi_feat]
  have hbound : ∀ m, m < effective_nongt cfg2 2 →
      |weighted_aff cfg2 zeroW 2 none zeroRoi 0 0 0 m| ≤ 100000000000000 ∧
        |Lzero.el 0 0 m| ≤ 100000000000000 := by
    intro m _
    constructor
    · rw [hwzero m]; norm_num
    · norm_num [Lzero]
  exact ⟨h1, h2, hmask, hopen, hbound,
    C1_mask_before_bias cfg2 zeroW 2 none zeroRoi Amask Lzero 0 0 0 1 0
      h1 h2 hmask hopen hbound⟩

/-- Counterexample to C4 as stated: with an all-zero adjacency but unequal
label biases (`0` and `log 2`), the masked row's scores are not all the same
sentinel constant and the softmax is not uniform: neighbor `0` gets weight
`1/3`, not `1/2`. -/
theorem C4_counterexample :
    Azero.el 0 0 0 ≤ 0 ∧ Azero.el 0 0 1 ≤ 0 ∧
    aff_softmax 2 (weighted_aff_masked (weighted_aff cfg2 zeroW 2 none zeroRoi) Azero Llog)
        0 0 0 0 = 1 / 3 ∧
    aff_softmax 2 (weighted_aff_masked (weighted_aff cfg2 zeroW 2 none zeroRoi) Azero Llog)
        0 0 0 0 ≠ 1 / 2 := by
  have hs0 : weighted_aff_masked (weighted_aff cfg2 zeroW 2 none zeroRoi)
      Azero Llog 0 0 0 0 = neg_sentinel := by
    simp [weighted_aff_masked, Azero, Llog]
  have hs1 : weighted_aff_masked (weighted_aff cfg2 zeroW 2 none zeroRoi)
      Azero Llog 0 0 0 1 = neg_sentinel + Real.log 2 := by
    simp [weighted_aff_masked, Azero, Llog]
  have hval : aff_softmax 2 (weighted_aff_masked (weighted_aff cfg2 zeroW 2 none zeroRoi)
      Azero Llog) 0 0 0 0 = 1 / 3 := by
    unfold aff_softmax softmaxRow
    rw [Finset.sum_range_succ, Finset.sum_range_one, hs0, hs1]
    rw [Real.exp_add, Real.exp_log (by norm_num : (0 : ℝ) < 2)]
    rw [div_eq_iff (by positivity)]
    ring
  refine ⟨by norm_num [Azero], by norm_num [Azero], hval, ?_⟩
  rw [hval]
  norm_num

/-- C4 (amended): with an all-masked row, every pre-bias score of the row is
replaced by the same sentinel, so the softmax weights equal the softmax of
the bias row alone — independent of the content scores; when the bias row is
constant the weights are uniform `1 / effective_nongt` and each output
element is the output mixing projection applied to the plain unweighted mean
of the neighbor feature rows. -/
theorem C4_all_masked_mean (cfg : Config) (θ : Weights) (B N : ℕ)
    (roi : ℕ → ℕ → ℕ → ℝ) (A L : T3) (posE : Option T4) (t : T3) (b i o : ℕ) (cst : ℝ)
    (hdg : cfg.num_heads * dim_group cfg = cfg.feat_dim)
    (hi : i < N) (ho : o < cfg.feat_dim) (hn : 0 < effective_nongt cfg N)
    (hfw : forward cfg θ B N roi (some A) posE (some L) = Except.ok t)
    (hadj : ∀ j, j < effective_nongt cfg N → A.el b i j ≤ 0)
    (hbias : ∀ j, j < effective_nongt cfg N → L.el b i j = cst) :
    (∀ h j, j < effective_nongt cfg N →
        aff_softmax (effective_nongt cfg N)
          (weighted_aff_masked (weighted_aff cfg θ N posE roi) A L) b i h j
          = 1 / (effective_nongt cfg N : ℝ)) ∧
    t.el b i o =
      (∑ c ∈ Finset.range cfg.feat_dim,
        θ.wout o c * ((∑ j ∈ Finset.range (effective_nongt cfg N), roi b j c)
          / (effective_nongt cfg N : ℝ))) + θ.bout o := by
  have hscore : ∀ h j, j < effective_nongt cfg N →
      weighted_aff_masked (weighted_aff cfg θ N posE roi) A L b i h j
        = neg_sentinel + cst := by
    intro h j hjn
    unfold weighted_aff_masked
    rw [if_neg (not_lt.mpr (hadj j hjn)), hbias j hjn]
  have huni : ∀ h j, j < effective_nongt cfg N →
      aff_softmax (effective_nongt cfg N)
        (weighted_aff_masked (weighted_aff cfg θ N posE roi) A L) b i h j
        = 1 / (effective_nongt cfg N : ℝ) := by
    intro h j hjn
    unfold aff_softmax softmaxRow
    rw [hscore h j hjn]
    have hsum : (∑ m ∈ Finset.range (effective_nongt cfg N),
        Real.exp (weighted_aff_masked (weighted_aff cfg θ N posE roi) A L b i h m))
        = (effective_nongt cfg N : ℝ) * Real.exp (neg_sentinel + cst) := by
      rw [Finset.sum_congr rfl fun m hm => by
        rw [hscore h m (Finset.mem_range.mp hm)]]
      rw [Finset.sum_const, Finset.card_range, nsmul_eq_mul]
    rw [hsum]
    have hd : ((effective_nongt cfg N : ℕ) : ℝ) ≠ 0 := Nat.cast_ne_zero.mpr hn.ne'
    have hb : ((effective_nongt cfg N : ℕ) : ℝ) * Real.exp (neg_sentinel + cst) ≠ 0 :=
      mul_ne_zero hd (Real.exp_ne_zero _)
    rw [div_eq_div_iff hb hd]
    ring
  refine ⟨huni, ?_⟩
  have hel : t.el b i o = outputEl cfg θ N (effective_nongt cfg N)
      (scoreOf cfg θ N posE roi (some A) (some L)) roi b i o := by
    rw [forward_ok_eq cfg θ B N roi (some A) posE (some L) t hfw]
  rw [hel]
  simp only [scoreOf]
  rw [outputEl_eq cfg θ N (effective_nongt cfg N) _ roi b i o hdg hi ho]
  congr 1
  refine Finset.sum_congr rfl fun c hc => ?_
  congr 1
  rw [Finset.sum_congr rfl fun j hjm => by
    rw [huni (o / dim_group cfg) j (Finset.mem_range.mp hjm), one_div,
      inv_mul_eq_div]]
  rw [← Finset.sum_div]

/-- Witness for the amended C4: two neighbors, all-zero adjacency, zero
biases. -/
theorem C4_witness :
    (cfg2.num_heads * dim_group cfg2 = cfg2.feat_dim) ∧ (0 < 2) ∧ (0 < cfg2.feat_dim) ∧
    (0 < effective_nongt cfg2 2) ∧
    (forward cfg2 zeroW 1 2 zeroRoi (some Azero) none (some Lzero) = Except.ok t4) ∧
    (∀ j, j < effective_nongt cfg2 2 → Azero.el 0 0 j ≤ 0) ∧
    (∀ j, j < effective_nongt cfg2 2 → Lzero.el 0 0 j = 0) ∧
    ((∀ h j, j < effective_nongt cfg2 2 →
        aff_softmax (effective_nongt cfg2 2)
          (weighted_aff_masked (weighted_aff cfg2 zeroW 2 none zeroRoi) Azero Lzero) 0 0 h j
          = 1 / (effective_nongt cfg2 2 : ℝ)) ∧
      t4.el 0 0 0 =
        (∑ c ∈ Finset.range cfg2.feat_dim,
          zeroW.wout 0 c * ((∑ j ∈ Finset.range (effective_nongt cfg2 2), zeroRoi 0 j c)
            / (effective_nongt cfg2 2 : ℝ))) + zeroW.bout 0) := by
  have hadj : ∀ j, j < effective_nongt cfg2 2 → Azero.el 0 0 j ≤ 0 := by
    intro j _
    norm_num [Azero]
  have hbias : ∀ j, j < effective_nongt cfg2 2 → Lzero.el 0 0 j = 0 := by
    intro j _
    norm_num [Lzero]
  exact ⟨rfl, by decide, by decide, by decide, rfl, hadj, hbias,
    C4_all_masked_mean cfg2 zeroW 1 2 zeroRoi Azero Lzero none t4 0 0 0 0
      rfl (by decide) (by decide) (by decide) rfl hadj hbias⟩

end

end GraphAtt
